import Mathlib

/-!
# Verification of the shorten URL-shortener core (main.go)

Shallow embedding of the bolt-backed key/value core of `main.go`:
the `Serve` resolver handler, the `Mint` handler's transaction, and one
cycle of the `Expirer` background loop, over a pure model of the two
bolt buckets `urls` (URL → token) and `keys` (token → serialized Key).

Modelling choices, each tied to the source:
* Time is a `Nat` (nanoseconds, as in Go's `time`); `a.Before(b)` is `a < b`.
* A bolt bucket is an association list; `Get` is first-match lookup,
  `Put` replaces the binding, `Delete` removes it.  A bucket that was
  never created is `none`.
* A stored `keys`-bucket value is either `Stored.good k` (JSON decodes to
  the `Key` struct `k`) or `Stored.corrupt s` (undecodable bytes; `s` is
  the value the `Url` field of the target struct holds after the failed
  `json.Unmarshal`, which `Expirer` reads at line 179 of main.go).
* The random candidate token `strconv.FormatInt(rand.Int63(), 36)`
  (line 108) is a parameter `cand`; `formatBase36` models the rendering.
* A bolt engine-level transaction failure of `db.Update` is the
  parameter `txOk = false`: the transaction rolls back (the store is
  unchanged) and the handler's error branch runs.
* The handler's writes to the `http.ResponseWriter` are recorded as a
  list of `Act`s in order, so fall-through after a `http.NotFound` or
  `http.Error` (the missing `return`s at lines 77 and 153) is visible.
-/

/-- The `Key` struct of main.go lines 42-45: target URL and expiry. -/
structure Key where
  Url : String
  Expiry : Nat
deriving Repr, DecidableEq

/-- A raw value stored in the `keys` bucket, as seen through
`json.Unmarshal`: either it decodes to a `Key`, or decoding fails and the
partially-filled `Url` field is `s`. -/
inductive Stored where
  | good : Key → Stored
  | corrupt : String → Stored
deriving Repr, DecidableEq

/-- The bolt database: the `urls` bucket (URL → token) and the `keys`
bucket (token → stored value), each `none` until created. -/
structure DB where
  urls : Option (List (String × String))
  keys : Option (List (String × Stored))
deriving Repr, DecidableEq

/-- Writes a handler performs on its `http.ResponseWriter`, in order. -/
inductive Act where
  | notFound
  | internalError
  | badRequest
  | ok (body : String)
  | redirect (url : String)
deriving Repr, DecidableEq

/-- Bucket `Get`: first binding of the key, if any. -/
def lookupA {α : Type} : List (String × α) → String → Option α
  | [], _ => none
  | (k, v) :: l, k' => if k = k' then some v else lookupA l k'

/-- Bucket `Delete`: remove the binding of the key. -/
def eraseA {α : Type} : List (String × α) → String → List (String × α)
  | [], _ => []
  | (k, v) :: l, k' => if k = k' then eraseA l k' else (k, v) :: eraseA l k'

/-- Bucket `Put`: bind `k` to `v`, replacing any existing binding. -/
def insertA {α : Type} (l : List (String × α)) (k : String) (v : α) :
    List (String × α) :=
  (k, v) :: eraseA l k

/-- Lookup in the `urls` bucket of a database (absent bucket = empty). -/
def urlsGet (db : DB) (u : String) : Option String :=
  lookupA (db.urls.getD []) u

/-- Lookup in the `keys` bucket of a database (absent bucket = empty). -/
def keysGet (db : DB) (t : String) : Option Stored :=
  lookupA (db.keys.getD []) t

/-- `time.Hour * 24 * 30` in nanoseconds (main.go line 133). -/
def thirtyDays : Nat := 2592000000000000

/-- `strings.TrimLeft(path, "/")` (main.go line 57). -/
def trimLeftSlash (s : String) : String :=
  String.mk (s.data.dropWhile (· == '/'))

/-- The body of the `Serve` handler's `db.View` closure after the lookup
key has been computed (main.go lines 50-81).  Returns the database seen
by the transaction (unchanged: the closure performs no writes) and the
response writes.  Note the expired branch (lines 73-77) has no `return`:
it falls through to the redirect at line 80. -/
def Resolve (keyStr : String) (now : Nat) (db : DB) : DB × List Act :=
  match db.keys with
  | none => (db, [.notFound])
  | some ks =>
    match lookupA ks keyStr with
    | none => (db, [.notFound])
    | some (.corrupt _) => (db, [.internalError])
    | some (.good keyObj) =>
      if keyObj.Expiry < now then
        (db, [.notFound, .redirect keyObj.Url])
      else
        (db, [.redirect keyObj.Url])

/-- The `Serve` handler (main.go lines 47-89): trim the request path's
leading slashes and resolve the resulting key. -/
def Serve (path : String) (now : Nat) (db : DB) : DB × List Act :=
  Resolve (trimLeftSlash path) now db

/-- The token `Mint` writes: the existing token of `url` from the `urls`
bucket if present, else the fresh candidate (main.go lines 108, 120-123). -/
def mintKey (db : DB) (url cand : String) : String :=
  (urlsGet db url).getD cand

/-- The `Mint` handler from the empty-URL check on (main.go lines
100-157), with the candidate token and the engine-level outcome of
`db.Update` as parameters.  Faithful details: `keyBytes` is read with the
ORIGINAL `keyId` (line 126), whose `nil` case bolt's `Get` compares equal
only to an empty key; a corrupt existing record is silently reset (lines
128-130); both `Key` fields are then overwritten (lines 132-133); on
`db.Update` failure the rolled-back handler still falls through (no
`return` at line 153) and writes the token after the 500 error. -/
def Mint (url cand : String) (now : Nat) (txOk : Bool) (db : DB) :
    DB × List Act :=
  if url = "" then (db, [.badRequest])
  else
    let us := db.urls.getD []
    let ks := db.keys.getD []
    let keyId := lookupA us url
    let key := keyId.getD cand
    let keyBytes := lookupA ks (keyId.getD "")
    let keyObj0 : Key := match keyBytes with
      | some (.good k) => k
      | _ => ⟨"", 0⟩
    let keyObj : Key := { keyObj0 with Url := url, Expiry := now + thirtyDays }
    if txOk then
      (⟨some (insertA us url key), some (insertA ks key (.good keyObj))⟩,
        [.ok key])
    else
      (db, [.internalError, .ok key])

/-- The marking condition of the `Expirer` loop body (main.go line 174):
decoding failed, or the record's expiry is before now. -/
def expiredOrCorrupt (now : Nat) : String × Stored → Bool
  | (_, .good k) => decide (k.Expiry < now)
  | (_, .corrupt _) => true

/-- The URL the `Expirer` marks for deletion from the `urls` bucket
(main.go line 179): the record's `Url` field, which on a failed decode is
whatever `json.Unmarshal` left in it. -/
def storedUrl : Stored → String
  | .good k => k.Url
  | .corrupt s => s

/-- One cycle of the `Expirer` loop's `db.Update` closure (main.go lines
163-199): scan the `keys` bucket, mark undecodable or expired entries,
then delete the marked tokens from `keys` and the marked URLs from
`urls` (if that bucket exists), all in one transaction. -/
def ExpirerCycle (now : Nat) (db : DB) : DB :=
  match db.keys with
  | none => db
  | some ks =>
    let marked := ks.filter (expiredOrCorrupt now)
    let keyDeletes := marked.map Prod.fst
    let urlDeletes := marked.map (fun kv => storedUrl kv.2)
    ⟨db.urls.map (fun us => urlDeletes.foldl eraseA us),
      some (keyDeletes.foldl eraseA ks)⟩

/-- Digit characters of `strconv.FormatInt`'s alphabet
`"0123456789abcdefghijklmnopqrstuvwxyz"`. -/
def digitChar36 (d : Nat) : Char :=
  if d < 10 then Char.ofNat (48 + d) else Char.ofNat (87 + d)

/-- The digit loop of `strconv.formatBits` for base 36: emit `n % 36`
digits most-significant first into `acc`. -/
def toBase36Go (n : Nat) (acc : List Char) : List Char :=
  if h : n = 0 then acc
  else toBase36Go (n / 36) (digitChar36 (n % 36) :: acc)
decreasing_by exact Nat.div_lt_self (Nat.pos_of_ne_zero h) (by decide)

/-- `strconv.FormatInt(n, 36)` for non-negative `n` (main.go line 108). -/
def formatBase36 (n : Nat) : String :=
  if n = 0 then "0" else String.mk (toBase36Go n [])

/-- The cross-namespace invariant of spec §3: a URL bound to a token whose
record exists, decodes and is unexpired points back at that URL. -/
def CrossInv (now : Nat) (db : DB) : Prop :=
  ∀ u t k, urlsGet db u = some t → keysGet db t = some (.good k) →
    ¬ k.Expiry < now → k.Url = u

/-! ## Association-list bucket lemmas -/

theorem lookupA_eraseA_ne {α : Type} {k k' : String} (h : k ≠ k') :
    ∀ l : List (String × α), lookupA (eraseA l k) k' = lookupA l k' := by
  intro l
  induction l with
  | nil => rfl
  | cons p l ih =>
    obtain ⟨a, b⟩ := p
    by_cases ha : a = k
    · have ha' : ¬ a = k' := fun hh => h (ha ▸ hh)
      simp [eraseA, lookupA, if_pos ha, if_neg ha', ih]
    · simp only [eraseA, if_neg ha, lookupA, ih]

theorem lookupA_eraseA_self {α : Type} (k : String) :
    ∀ l : List (String × α), lookupA (eraseA l k) k = none := by
  intro l
  induction l with
  | nil => rfl
  | cons p l ih =>
    obtain ⟨a, b⟩ := p
    by_cases ha : a = k
    · simp only [eraseA, if_pos ha, ih]
    · simp only [eraseA, if_neg ha, lookupA, ih]

theorem lookupA_insert_self {α : Type} (l : List (String × α)) (k : String)
    (v : α) : lookupA (insertA l k v) k = some v := by
  simp [insertA, lookupA]

theorem lookupA_insert_ne {α : Type} {k k' : String} (h : k ≠ k')
    (l : List (String × α)) (v : α) :
    lookupA (insertA l k v) k' = lookupA l k' := by
  simp only [insertA, lookupA, if_neg h, lookupA_eraseA_ne h]

theorem lookupA_foldl_eraseA_cases {α : Type} (ds : List String) (k : String) :
    ∀ l : List (String × α), lookupA (ds.foldl eraseA l) k = none ∨
      lookupA (ds.foldl eraseA l) k = lookupA l k := by
  induction ds with
  | nil => exact fun l => Or.inr rfl
  | cons d ds ih =>
    intro l
    rcases ih (eraseA l d) with h | h
    · exact Or.inl h
    · by_cases hd : d = k
      · subst hd
        rw [lookupA_eraseA_self] at h
        exact Or.inl h
      · rw [lookupA_eraseA_ne hd] at h
        exact Or.inr h

theorem lookupA_foldl_eraseA_not_mem {α : Type} {k : String} {ds : List String}
    (h : ¬ k ∈ ds) : ∀ l : List (String × α),
    lookupA (ds.foldl eraseA l) k = lookupA l k := by
  induction ds with
  | nil => exact fun _ => rfl
  | cons d ds ih =>
    intro l
    have hd : d ≠ k := fun hh => h (hh ▸ List.mem_cons_self d ds)
    have hds : ¬ k ∈ ds := fun hh => h (List.mem_cons_of_mem d hh)
    calc lookupA (ds.foldl eraseA (eraseA l d)) k
        = lookupA (eraseA l d) k := ih hds (eraseA l d)
      _ = lookupA l k := lookupA_eraseA_ne hd l

theorem lookupA_foldl_eraseA_mem {α : Type} {k : String} {ds : List String}
    (h : k ∈ ds) : ∀ l : List (String × α),
    lookupA (ds.foldl eraseA l) k = none := by
  induction ds with
  | nil => exact absurd h (List.not_mem_nil k)
  | cons d ds ih =>
    intro l
    by_cases hds : k ∈ ds
    · exact ih hds (eraseA l d)
    · have hd : d = k := by
        rcases List.mem_cons.1 h with hh | hh
        · exact hh.symm
        · exact absurd hh hds
      subst hd
      rw [List.foldl_cons, lookupA_foldl_eraseA_not_mem hds, lookupA_eraseA_self]

theorem lookupA_mem {α : Type} {k : String} {v : α} :
    ∀ {l : List (String × α)}, lookupA l k = some v → (k, v) ∈ l := by
  intro l
  induction l with
  | nil => intro h; exact absurd h (by simp [lookupA])
  | cons p l ih =>
    obtain ⟨a, b⟩ := p
    intro h
    by_cases ha : a = k
    · subst ha
      have hbv : b = v := by simpa [lookupA] using h
      subst hbv
      exact List.mem_cons_self _ _
    · simp only [lookupA, if_neg ha] at h
      exact List.mem_cons_of_mem _ (ih h)

theorem lookupA_of_nodup_mem {α : Type} {k : String} {v : α} :
    ∀ {l : List (String × α)}, (l.map Prod.fst).Nodup → (k, v) ∈ l →
      lookupA l k = some v := by
  intro l
  induction l with
  | nil => intro _ h; exact absurd h (List.not_mem_nil _)
  | cons p l ih =>
    obtain ⟨a, b⟩ := p
    intro hnd hmem
    simp only [List.map_cons, List.nodup_cons] at hnd
    rcases List.mem_cons.1 hmem with hh | hh
    · have h1 : k = a := congrArg Prod.fst hh
      have h2 : v = b := congrArg Prod.snd hh
      subst h1
      subst h2
      simp [lookupA]
    · have ha : a ≠ k := by
        intro he
        exact hnd.1 (he ▸ List.mem_map.2 ⟨(k, v), hh, rfl⟩)
      simp only [lookupA, if_neg ha]
      exact ih hnd.2 hh

/-- Database with one token whose record expired at time 1. -/
def c1db : DB :=
  ⟨some [("http://example.com/a", "t")],
    some [("t", .good ⟨"http://example.com/a", 1⟩)]⟩

/-- Database holding one corrupt and one healthy record. -/
def c7db : DB :=
  ⟨some [], some [("bad", .corrupt "u1"), ("good", .good ⟨"http://ok", 10⟩)]⟩

/-- Database holding an expired, a live and a corrupt record. -/
def c2db : DB :=
  ⟨some [("u1", "t1"), ("u2", "t2"), ("ub", "t3")],
    some [("t1", .good ⟨"u1", 5⟩), ("t2", .good ⟨"u2", 100⟩),
      ("t3", .corrupt "ub")]⟩

/-- Database where URL `a` is bound to token `t` with a live record. -/
def c4db : DB := ⟨some [("a", "t")], some [("t", .good ⟨"a", 100⟩)]⟩

/-- Database used as the concrete store of the C10 witness. -/
def c10db : DB := ⟨some [], some [("ab", .good ⟨"http://x", 10⟩)]⟩

example : formatBase36 0 = "0" := by rfl
example : formatBase36 36 = "10" := by simp [formatBase36, toBase36Go, digitChar36]
example : formatBase36 35 = "z" := by simp [formatBase36, toBase36Go, digitChar36]
example : trimLeftSlash "//abc/d" = "abc/d" := by decide

/-! ## Claim theorems -/

/-- Claim C8: the Resolver never mutates the store: for every request
path, time and database state, the database after `Serve`'s read-only
transaction equals the input database, so in particular an expired hit
does not delete the record — deletion is solely the Sweeper's job. -/
theorem Serve_never_mutates (path : String) (now : Nat) (db : DB) :
    (Serve path now db).1 = db := by
  rcases db with ⟨us, ks⟩
  cases ks with
  | none => rfl
  | some l =>
    simp only [Serve, Resolve]
    cases lookupA l (trimLeftSlash path) with
    | none => rfl
    | some v =>
      cases v with
      | corrupt s => rfl
      | good k =>
        by_cases h : k.Expiry < now
        · simp [h]
        · simp [h]

/-- Claim C1 (code bug): at time 2 the record of token `t` in `c1db` is
expired, yet `Resolve` reports not-found AND then issues a redirect to
the target URL: the expired branch of `Serve` (main.go lines 73-77) has
no `return`, so control falls through to the redirect at line 80. -/
theorem expired_key_still_redirects :
    Resolve "t" 2 c1db =
      (c1db, [.notFound, .redirect "http://example.com/a"]) := by decide

/-- Claim C3 (code bug): when the `db.Update` transaction fails, the
`Mint` handler reports the internal error but then still writes the
token to the response (missing `return` at main.go line 153), so a token
IS returned to the caller on a store failure; the store itself is left
unchanged by the rolled-back transaction. -/
theorem mint_tx_failure_emits_token :
    Mint "http://example.com/a" "tok" 0 false ⟨none, none⟩ =
      (⟨none, none⟩, [.internalError, .ok "tok"]) := by decide

/-- Claim C7: a present but undecodable record makes `Resolve` report an
internal error, distinct from not-found, while any other token with a
decodable unexpired record still resolves to its target. -/
theorem corrupt_internal_error_isolated (db : DB)
    (ks : List (String × Stored)) (now : Nat) (t s : String)
    (hks : db.keys = some ks) (hc : lookupA ks t = some (.corrupt s)) :
    Resolve t now db = (db, [.internalError]) ∧
    ∀ t' k, lookupA ks t' = some (.good k) → ¬ k.Expiry < now →
      Resolve t' now db = (db, [.redirect k.Url]) := by
  constructor
  · simp only [Resolve, hks, hc]
  · intro t' k hk hexp
    simp only [Resolve, hks, hk, if_neg hexp]

/-- Witness for C7 at a concrete database and time. -/
theorem corrupt_internal_error_isolated_witness :
    Resolve "bad" 5 c7db = (c7db, [.internalError]) ∧
    Resolve "good" 5 c7db = (c7db, [.redirect "http://ok"]) := by
  have h := corrupt_internal_error_isolated c7db
    [("bad", .corrupt "u1"), ("good", .good ⟨"http://ok", 10⟩)]
    5 "bad" "u1" rfl rfl
  exact ⟨h.1, h.2 "good" ⟨"http://ok", 10⟩ rfl (by decide)⟩

/-- Claim C2: after one `Expirer` cycle at time `now`, every token whose
record decodes but is expired is gone from the `keys` bucket and its
target URL from the `urls` bucket; every token whose value fails to
decode is gone from the `keys` bucket, along with the URL-field remnant
the failed decode left behind; and every token with a decodable
unexpired record keeps its record and still resolves to its target.  The
`Nodup` hypothesis is bolt's bucket-key uniqueness. -/
theorem expirer_cycle_correct (now : Nat) (db : DB)
    (ks : List (String × Stored)) (hks : db.keys = some ks)
    (hnd : (ks.map Prod.fst).Nodup) :
    (∀ t k, lookupA ks t = some (.good k) → k.Expiry < now →
      keysGet (ExpirerCycle now db) t = none ∧
      ∀ us, (ExpirerCycle now db).urls = some us → lookupA us k.Url = none) ∧
    (∀ t s, lookupA ks t = some (.corrupt s) →
      keysGet (ExpirerCycle now db) t = none ∧
      ∀ us, (ExpirerCycle now db).urls = some us → lookupA us s = none) ∧
    (∀ t k, lookupA ks t = some (.good k) → ¬ k.Expiry < now →
      keysGet (ExpirerCycle now db) t = some (.good k) ∧
      Resolve t now (ExpirerCycle now db) =
        (ExpirerCycle now db, [.redirect k.Url])) := by
  have hcyc : ExpirerCycle now db =
      ⟨db.urls.map (fun us =>
          (((ks.filter (expiredOrCorrupt now)).map
            (fun kv => storedUrl kv.2)).foldl eraseA us)),
        some (((ks.filter (expiredOrCorrupt now)).map
          Prod.fst).foldl eraseA ks)⟩ := by
    simp only [ExpirerCycle, hks]
  have hdel : ∀ t v, lookupA ks t = some v → expiredOrCorrupt now (t, v) →
      keysGet (ExpirerCycle now db) t = none ∧
      ∀ us, (ExpirerCycle now db).urls = some us →
        lookupA us (storedUrl v) = none := by
    intro t v hl hcond
    have hmarked : (t, v) ∈ ks.filter (expiredOrCorrupt now) :=
      List.mem_filter.2 ⟨lookupA_mem hl, hcond⟩
    constructor
    · rw [hcyc]
      exact lookupA_foldl_eraseA_mem
        (List.mem_map.2 ⟨(t, v), hmarked, rfl⟩) ks
    · intro us hus
      rw [hcyc] at hus
      obtain ⟨us0, _, hmap⟩ := Option.map_eq_some'.1 hus
      rw [← hmap]
      exact lookupA_foldl_eraseA_mem
        (List.mem_map.2 ⟨(t, v), hmarked, rfl⟩) us0
  refine ⟨fun t k hl hexp => hdel t (.good k) hl (by
      simp [expiredOrCorrupt, hexp]),
    fun t s hl => hdel t (.corrupt s) hl rfl,
    fun t k hl hexp => ?_⟩
  have hnotdel : ¬ t ∈ (ks.filter (expiredOrCorrupt now)).map Prod.fst := by
    intro hmem
    obtain ⟨kv, hkvf, hfst⟩ := List.mem_map.1 hmem
    obtain ⟨kv1, kv2⟩ := kv
    obtain ⟨hkv, hcond⟩ := List.mem_filter.1 hkvf
    simp only at hfst
    subst hfst
    have := lookupA_of_nodup_mem hnd hkv
    rw [hl] at this
    have hv : kv2 = Stored.good k := by
      injection this.symm
    subst hv
    simp [expiredOrCorrupt, hexp] at hcond
  have hkeys : (ExpirerCycle now db).keys =
      some (((ks.filter (expiredOrCorrupt now)).map
        Prod.fst).foldl eraseA ks) := by
    rw [hcyc]
  have hkeep : keysGet (ExpirerCycle now db) t = some (.good k) := by
    simp only [keysGet, hkeys, Option.getD_some,
      lookupA_foldl_eraseA_not_mem hnotdel, hl]
  refine ⟨hkeep, ?_⟩
  simp only [Resolve, hkeys, lookupA_foldl_eraseA_not_mem hnotdel, hl,
    if_neg hexp]

/-- Witness for C2 at a concrete database and sweep time. -/
theorem expirer_cycle_correct_witness :
    keysGet (ExpirerCycle 10 c2db) "t1" = none ∧
    keysGet (ExpirerCycle 10 c2db) "t3" = none ∧
    keysGet (ExpirerCycle 10 c2db) "t2" = some (.good ⟨"u2", 100⟩) := by
  have h := expirer_cycle_correct 10 c2db
    [("t1", .good ⟨"u1", 5⟩), ("t2", .good ⟨"u2", 100⟩),
      ("t3", .corrupt "ub")] rfl (by decide)
  exact ⟨(h.1 "t1" ⟨"u1", 5⟩ rfl (by decide)).1,
    (h.2.1 "t3" "ub" rfl).1,
    (h.2.2 "t2" ⟨"u2", 100⟩ rfl (by decide)).1⟩

/-- A successful `Mint` of a non-empty URL: binds the URL to `mintKey`
(existing token if any, else the candidate) and stores a fresh record
with target `url` and expiry `now + thirtyDays`, returning the token. -/
theorem Mint_ok (url cand : String) (now : Nat) (db : DB) (hu : url ≠ "") :
    Mint url cand now true db =
      (⟨some (insertA (db.urls.getD []) url (mintKey db url cand)),
        some (insertA (db.keys.getD []) (mintKey db url cand)
          (.good ⟨url, now + thirtyDays⟩))⟩,
        [.ok (mintKey db url cand)]) := by
  simp [Mint, if_neg hu, mintKey, urlsGet]

/-- Claim C5: minting the same URL twice (successfully, at
non-decreasing times) returns the same token both times, and the second
mint's stored record has expiry ≥ the first's. -/
theorem mint_idempotent (db : DB) (u c1 c2 : String) (n1 n2 : Nat)
    (hu : u ≠ "") (hn : n1 ≤ n2) :
    (Mint u c1 n1 true db).2 = [.ok (mintKey db u c1)] ∧
    (Mint u c2 n2 true (Mint u c1 n1 true db).1).2 =
      [.ok (mintKey db u c1)] ∧
    keysGet (Mint u c1 n1 true db).1 (mintKey db u c1) =
      some (.good ⟨u, n1 + thirtyDays⟩) ∧
    keysGet (Mint u c2 n2 true (Mint u c1 n1 true db).1).1 (mintKey db u c1) =
      some (.good ⟨u, n2 + thirtyDays⟩) ∧
    n1 + thirtyDays ≤ n2 + thirtyDays := by
  have h1 := Mint_ok u c1 n1 db hu
  have hdb1 : (Mint u c1 n1 true db).1 =
      ⟨some (insertA (db.urls.getD []) u (mintKey db u c1)),
        some (insertA (db.keys.getD []) (mintKey db u c1)
          (.good ⟨u, n1 + thirtyDays⟩))⟩ := by
    rw [h1]
  have hmk2 : mintKey (Mint u c1 n1 true db).1 u c2 = mintKey db u c1 := by
    rw [hdb1]
    simp [mintKey, urlsGet, lookupA_insert_self]
  have h2 := Mint_ok u c2 n2 (Mint u c1 n1 true db).1 hu
  refine ⟨by rw [h1], ?_, ?_, ?_, Nat.add_le_add_right hn _⟩
  · rw [h2, hmk2]
  · rw [hdb1]
    simp [keysGet, lookupA_insert_self]
  · rw [h2, hmk2]
    simp [keysGet, lookupA_insert_self]

/-- Witness for C5: two mints of the same URL from the empty store. -/
theorem mint_idempotent_witness :
    (Mint "http://a" "t" 0 true ⟨none, none⟩).2 = [.ok "t"] ∧
    (Mint "http://a" "s" 1 true
      (Mint "http://a" "t" 0 true ⟨none, none⟩).1).2 = [.ok "t"] ∧
    keysGet (Mint "http://a" "t" 0 true ⟨none, none⟩).1 "t" =
      some (.good ⟨"http://a", 0 + thirtyDays⟩) ∧
    keysGet (Mint "http://a" "s" 1 true
        (Mint "http://a" "t" 0 true ⟨none, none⟩).1).1 "t" =
      some (.good ⟨"http://a", 1 + thirtyDays⟩) ∧
    0 + thirtyDays ≤ 1 + thirtyDays :=
  mint_idempotent ⟨none, none⟩ "http://a" "t" "s" 0 1 (by decide) (by decide)

/-- Claim C6: round trip — resolving the token returned by a successful
mint of a non-empty URL, at any time up to the stored expiry, redirects
to that URL (found, without the internal-error or not-found writes). -/
theorem mint_resolve_roundtrip (db : DB) (u c : String) (n m : Nat)
    (hu : u ≠ "") (hm : m ≤ n + thirtyDays) :
    (Mint u c n true db).2 = [.ok (mintKey db u c)] ∧
    Resolve (mintKey db u c) m (Mint u c n true db).1 =
      ((Mint u c n true db).1, [.redirect u]) := by
  have h1 := Mint_ok u c n db hu
  refine ⟨by rw [h1], ?_⟩
  rw [h1]
  simp only [Resolve, lookupA_insert_self]
  rw [if_neg (by omega)]

/-- Witness for C6: mint from the empty store, resolve immediately. -/
theorem mint_resolve_roundtrip_witness :
    (Mint "http://a" "t" 0 true ⟨none, none⟩).2 = [.ok "t"] ∧
    Resolve "t" 5 (Mint "http://a" "t" 0 true ⟨none, none⟩).1 =
      ((Mint "http://a" "t" 0 true ⟨none, none⟩).1,
        [.redirect "http://a"]) :=
  mint_resolve_roundtrip ⟨none, none⟩ "http://a" "t" 0 5 (by decide)
    (by decide)

/-- At most `k` digits are emitted for `n < 36 ^ k`. -/
theorem toBase36Go_length (k : Nat) : ∀ n acc, n < 36 ^ k →
    (toBase36Go n acc).length ≤ k + acc.length := by
  induction k with
  | zero =>
    intro n acc hn
    have h0 : n = 0 := Nat.lt_one_iff.1 (by simpa using hn)
    subst h0
    unfold toBase36Go
    simp
  | succ k ih =>
    intro n acc hn
    unfold toBase36Go
    by_cases h : n = 0
    · simp only [dif_pos h]
      omega
    · simp only [dif_neg h]
      have hdiv : n / 36 < 36 ^ k := by
        rw [Nat.div_lt_iff_lt_mul (by norm_num : 0 < 36)]
        calc n < 36 ^ (k + 1) := hn
          _ = 36 ^ k * 36 := by ring
      have hr := ih (n / 36) (digitChar36 (n % 36) :: acc) hdiv
      simp only [List.length_cons] at hr
      omega

/-- Every emitted character is a base-36 digit or comes from `acc`. -/
theorem toBase36Go_chars (n : Nat) : ∀ acc ch, ch ∈ toBase36Go n acc →
    ch ∈ acc ∨ ∃ d, d < 36 ∧ ch = digitChar36 d := by
  induction n using Nat.strong_induction_on with
  | _ n ih =>
    intro acc ch hch
    by_cases h : n = 0
    · subst h
      unfold toBase36Go at hch
      simp only [dif_pos rfl] at hch
      exact Or.inl hch
    · unfold toBase36Go at hch
      rw [dif_neg h] at hch
      have hrec := ih (n / 36)
        (Nat.div_lt_self (Nat.pos_of_ne_zero h) (by decide))
        (digitChar36 (n % 36) :: acc) ch hch
      rcases hrec with hmem | hd
      · rcases List.mem_cons.1 hmem with he | hacc
        · exact Or.inr ⟨n % 36, Nat.mod_lt n (by decide), he⟩
        · exact Or.inl hacc
      · exact Or.inr hd

/-- At least one digit is emitted for a non-zero input. -/
theorem toBase36Go_length_ge (n : Nat) :
    ∀ acc, acc.length ≤ (toBase36Go n acc).length := by
  induction n using Nat.strong_induction_on with
  | _ n ih =>
    intro acc
    unfold toBase36Go
    by_cases h : n = 0
    · simp [h]
    · rw [dif_neg h]
      have hrec := ih (n / 36)
        (Nat.div_lt_self (Nat.pos_of_ne_zero h) (by decide))
        (digitChar36 (n % 36) :: acc)
      simp only [List.length_cons] at hrec
      omega

/-- Every base-36 digit character is in `0`-`9` or `a`-`z`. -/
theorem digitChar36_range : ∀ d < 36,
    ('0' ≤ digitChar36 d ∧ digitChar36 d ≤ '9') ∨
    ('a' ≤ digitChar36 d ∧ digitChar36 d ≤ 'z') := by decide

/-- `formatBase36` of a 63-bit value is a non-empty string of at most 13
characters drawn from the digits and lowercase letters. -/
theorem formatBase36_ok (n : Nat) (hn : n < 2 ^ 63) :
    formatBase36 n ≠ "" ∧ (formatBase36 n).length ≤ 13 ∧
    ∀ ch ∈ (formatBase36 n).data,
      ('0' ≤ ch ∧ ch ≤ '9') ∨ ('a' ≤ ch ∧ ch ≤ 'z') := by
  by_cases h : n = 0
  · subst h
    exact ⟨by decide, by decide, by decide⟩
  · have hfmt : formatBase36 n = String.mk (toBase36Go n []) := by
      simp [formatBase36, h]
    have hpow : n < 36 ^ 13 :=
      lt_of_lt_of_le hn (by norm_num)
    refine ⟨?_, ?_, ?_⟩
    · rw [hfmt]
      intro hcon
      have hdata : toBase36Go n [] = [] := congrArg String.data hcon
      have hge := toBase36Go_length_ge (n / 36) (digitChar36 (n % 36) :: [])
      have hun : toBase36Go n [] =
          toBase36Go (n / 36) (digitChar36 (n % 36) :: []) := by
        conv_lhs => rw [toBase36Go]
        rw [dif_neg h]
      rw [hun] at hdata
      rw [hdata] at hge
      simp at hge
    · rw [hfmt]
      show (toBase36Go n []).length ≤ 13
      have := toBase36Go_length 13 n [] hpow
      simpa using this
    · rw [hfmt]
      intro ch hch
      rcases toBase36Go_chars n [] ch hch with hmem | ⟨d, hd, he⟩
      · exact absurd hmem (List.not_mem_nil ch)
      · rw [he]
        exact digitChar36_range d hd

/-- Claim C9: minting a URL not yet bound in the urls bucket returns,
and stores under both buckets, the base-36 rendering of the 63-bit
random value: a non-empty string of at most 13 characters drawn from
0-9 and a-z. -/
theorem fresh_token_base36 (db : DB) (u : String) (rnd n : Nat)
    (hu : u ≠ "") (hfresh : urlsGet db u = none) (hr : rnd < 2 ^ 63) :
    (Mint u (formatBase36 rnd) n true db).2 = [.ok (formatBase36 rnd)] ∧
    urlsGet (Mint u (formatBase36 rnd) n true db).1 u =
      some (formatBase36 rnd) ∧
    keysGet (Mint u (formatBase36 rnd) n true db).1 (formatBase36 rnd) =
      some (.good ⟨u, n + thirtyDays⟩) ∧
    formatBase36 rnd ≠ "" ∧ (formatBase36 rnd).length ≤ 13 ∧
    ∀ ch ∈ (formatBase36 rnd).data,
      ('0' ≤ ch ∧ ch ≤ '9') ∨ ('a' ≤ ch ∧ ch ≤ 'z') := by
  have hkey : mintKey db u (formatBase36 rnd) = formatBase36 rnd := by
    simp [mintKey, hfresh]
  have h1 := Mint_ok u (formatBase36 rnd) n db hu
  rw [hkey] at h1
  obtain ⟨hne, hlen, hchars⟩ := formatBase36_ok rnd hr
  refine ⟨by rw [h1], ?_, ?_, hne, hlen, hchars⟩
  · rw [h1]
    simp [urlsGet, lookupA_insert_self]
  · rw [h1]
    simp [keysGet, lookupA_insert_self]

/-- Witness for C9: minting from the empty store with random value 0. -/
theorem fresh_token_base36_witness :
    (Mint "http://a" (formatBase36 0) 7 true ⟨none, none⟩).2 =
      [.ok (formatBase36 0)] ∧
    urlsGet (Mint "http://a" (formatBase36 0) 7 true
      ⟨none, none⟩).1 "http://a" = some (formatBase36 0) ∧
    keysGet (Mint "http://a" (formatBase36 0) 7 true ⟨none, none⟩).1
      (formatBase36 0) = some (.good ⟨"http://a", 7 + thirtyDays⟩) ∧
    formatBase36 0 ≠ "" ∧ (formatBase36 0).length ≤ 13 ∧
    ∀ ch ∈ (formatBase36 0).data,
      ('0' ≤ ch ∧ ch ≤ '9') ∨ ('a' ≤ ch ∧ ch ≤ 'z') :=
  fresh_token_base36 ⟨none, none⟩ "http://a" 0 7 (by decide) rfl (by decide)

/-- Claim C4 (counterexample): `Mint` does NOT always preserve the
cross-namespace invariant.  `c4db` satisfies it at time 0, but minting
the new URL `b` when the random candidate collides with the existing
token `t` rebinds the record of `t` to target `b` while the urls bucket
still maps `a` to `t`. -/
theorem mint_breaks_cross_inv :
    CrossInv 0 c4db ∧ ¬ CrossInv 0 (Mint "b" "t" 0 true c4db).1 := by
  constructor
  · intro u t k hu hk hexp
    simp only [urlsGet, c4db, Option.getD_some, lookupA] at hu
    by_cases ha : "a" = u
    · rw [if_pos ha] at hu
      injection hu with hu
      subst hu
      subst ha
      simp only [keysGet, c4db, Option.getD_some, lookupA, if_pos rfl] at hk
      injection hk with hk
      injection hk with hk
      rw [← hk]
    · rw [if_neg ha] at hu
      exact absurd hu (by simp [lookupA])
  · intro h
    have hcol := h "a" "t" ⟨"b", 0 + thirtyDays⟩ (by decide) (by decide)
      (by decide)
    exact absurd hcol (by decide)

/-- Claim C4 (amended): one `Expirer` cycle always preserves the
cross-namespace invariant, and `Mint` preserves it provided the token it
writes is not the token of any OTHER URL's binding in the urls bucket —
without that proviso the claim fails (see the collision counterexample). -/
theorem mint_expirer_preserve_inv (db : DB) (now : Nat) (url cand : String)
    (txOk : Bool) (hinv : CrossInv now db)
    (hfree : ∀ u, u ≠ url → urlsGet db u ≠ some (mintKey db url cand)) :
    CrossInv now (Mint url cand now txOk db).1 ∧
    CrossInv now (ExpirerCycle now db) := by
  constructor
  · by_cases hurl : url = ""
    · simpa [Mint, hurl] using hinv
    · cases txOk with
      | false =>
        have hsame : (Mint url cand now false db).1 = db := by
          simp [Mint, if_neg hurl]
        rw [hsame]
        exact hinv
      | true =>
        rw [Mint_ok url cand now db hurl]
        intro u t k hu hk hexp
        by_cases huu : u = url
        · subst huu
          simp only [urlsGet, Option.getD_some, lookupA_insert_self] at hu
          injection hu with hu
          subst hu
          simp only [keysGet, Option.getD_some, lookupA_insert_self] at hk
          injection hk with hk
          injection hk with hk
          rw [← hk]
        · have hune : url ≠ u := fun hh => huu hh.symm
          simp only [urlsGet, Option.getD_some,
            lookupA_insert_ne hune] at hu
          by_cases ht : t = mintKey db url cand
          · subst ht
            exact absurd (show urlsGet db u = some (mintKey db url cand)
              from hu) (hfree u huu)
          · have htne : mintKey db url cand ≠ t := fun hh => ht hh.symm
            simp only [keysGet, Option.getD_some,
              lookupA_insert_ne htne] at hk
            exact hinv u t k hu hk hexp
  · cases hks : db.keys with
    | none =>
      have hsame : ExpirerCycle now db = db := by
        simp [ExpirerCycle, hks]
      rw [hsame]
      exact hinv
    | some ks =>
      have hcyc : ExpirerCycle now db =
          ⟨db.urls.map (fun us =>
              (((ks.filter (expiredOrCorrupt now)).map
                (fun kv => storedUrl kv.2)).foldl eraseA us)),
            some (((ks.filter (expiredOrCorrupt now)).map
              Prod.fst).foldl eraseA ks)⟩ := by
        simp only [ExpirerCycle, hks]
      intro u t k hu hk hexp
      rw [hcyc] at hu hk
      cases hus : db.urls with
      | none =>
        rw [hus] at hu
        exact absurd hu (by simp [urlsGet, lookupA])
      | some us =>
        rw [hus] at hu
        simp only [urlsGet, Option.map_some', Option.getD_some] at hu
        rcases lookupA_foldl_eraseA_cases
            ((ks.filter (expiredOrCorrupt now)).map (fun kv => storedUrl kv.2))
            u us with hnone | heq
        · rw [hnone] at hu
          exact absurd hu (by simp)
        · rw [heq] at hu
          simp only [keysGet, Option.getD_some] at hk
          rcases lookupA_foldl_eraseA_cases
              ((ks.filter (expiredOrCorrupt now)).map Prod.fst) t ks with
            hknone | hkeq
          · rw [hknone] at hk
            exact absurd hk (by simp)
          · rw [hkeq] at hk
            exact hinv u t k (by simp [urlsGet, hus, hu])
              (by simp [keysGet, hks, hk]) hexp

/-- Witness for the amended C4 at the empty store. -/
theorem mint_expirer_preserve_inv_witness :
    CrossInv 0 (Mint "x" "t" 0 true ⟨none, none⟩).1 ∧
    CrossInv 0 (ExpirerCycle 0 (⟨none, none⟩ : DB)) :=
  mint_expirer_preserve_inv ⟨none, none⟩ 0 "x" "t" true
    (fun u t k hu _ _ => absurd hu (by simp [urlsGet, lookupA]))
    (fun u _ => by simp [urlsGet, lookupA])

/-- Claim C10: `Serve` derives its lookup key by removing all leading
`/` characters from the request path, so a path of `m` slashes followed
by a token that does not begin with `/` resolves exactly that token; a
path consisting only of slashes looks up the empty key and is reported
not-found whenever the keys bucket holds no empty key (bolt's `Put`
rejects empty keys, so the program never stores one). -/
theorem serve_trims_leading_slashes (t : String) (now : Nat) (db : DB)
    (m : Nat) (ht : t.data.head? ≠ some '/')
    (hk : ∀ ks, db.keys = some ks → lookupA ks "" = none) :
    Serve (String.mk (List.replicate m '/' ++ t.data)) now db =
      Resolve t now db ∧
    Serve (String.mk (List.replicate m '/')) now db = (db, [.notFound]) := by
  have hdrop : ∀ l : List Char,
      (List.replicate m '/' ++ l).dropWhile (· == '/') =
        l.dropWhile (· == '/') := by
    intro l
    induction m with
    | zero => rfl
    | succ p ih => simp [List.replicate_succ, ih]
  have hdt : t.data.dropWhile (· == '/') = t.data := by
    cases hd : t.data with
    | nil => rfl
    | cons c l =>
      have hc : ¬ c = '/' := by
        intro hcc
        exact ht (by rw [hd, hcc]; rfl)
      simp [List.dropWhile_cons, hc]
  constructor
  · have htrim : trimLeftSlash (String.mk (List.replicate m '/' ++ t.data))
        = t := by
      simp only [trimLeftSlash]
      rw [hdrop, hdt]
    rw [Serve, htrim]
  · have htrim2 : trimLeftSlash (String.mk (List.replicate m '/')) = "" := by
      simp only [trimLeftSlash]
      have h0 := hdrop []
      rw [List.append_nil] at h0
      rw [h0]
      rfl
    rw [Serve, htrim2]
    cases hdb : db.keys with
    | none => simp only [Resolve, hdb]
    | some ks => simp only [Resolve, hdb, hk ks hdb]

/-- Witness for C10: the token `ab` behind two leading slashes, and the
all-slash path, against `c10db`. -/
theorem serve_trims_leading_slashes_witness :
    Serve (String.mk (List.replicate 2 '/' ++ "ab".data)) 5 c10db =
      Resolve "ab" 5 c10db ∧
    Serve (String.mk (List.replicate 2 '/')) 5 c10db =
      (c10db, [.notFound]) := by
  refine serve_trims_leading_slashes "ab" 5 c10db 2 (by decide) ?_
  intro ks hks
  injection hks with h
  rw [← h]
  decide
